import Mathlib

/-!
Verification of the openai/harmony C++ codec (src/src/tiktoken.cpp,
src/src/registry.cpp, src/src/encoding.cpp) against its specification.

Modelling conventions:
* C++ `std::string` / `std::vector<uint8_t>` values are byte lists, `List Nat`,
  with each byte `< 256`.
* `Rank` is `Nat`.
* The tokenizer instance is the one built by `load_harmony_encoding`
  (registry.cpp): bytes 0..255 map to ranks 0..255, the `common_pairs`
  table maps multi-byte strings to ranks 256..320, and the sixteen special
  literals map to ranks 200000..200015.
* The o200k pretokenizer pattern handed to `CoreBPE` uses possessive
  quantifiers, which `std::regex` (ECMAScript grammar) rejects with
  `error_badrepeat`; the constructor's catch block therefore installs the
  fallback pattern that alternates maximal non-whitespace and whitespace
  runs, and that fallback is what `encode_ordinary` actually splits with.
* Functions that can throw in C++ return `Option` or `Except` here.
-/

namespace Harmony

/-- Byte list of an ASCII string literal. -/
def ab (s : String) : List Nat := s.data.map Char.toNat

/-- The `common_pairs` table of `create_basic_encoder` (registry.cpp). -/
def commonPairs : List (List Nat × Nat) :=
  [(ab "th", 256), (ab "he", 257), (ab "in", 258), (ab "er", 259), (ab "an", 260),
   (ab "re", 261), (ab "ed", 262), (ab "nd", 263), (ab "on", 264), (ab "en", 265),
   (ab "at", 266), (ab "ou", 267), (ab "it", 268), (ab "is", 269), (ab "or", 270),
   (ab "ti", 271), (ab "as", 272), (ab "te", 273), (ab "et", 274), (ab "ng", 275),
   (ab "of", 276), (ab "al", 277), (ab "de", 278), (ab "se", 279), (ab "le", 280),
   (ab "to", 281), (ab "ar", 282), (ab "st", 283), (ab "nt", 284), (ab "ro", 285),
   (ab "ne", 286), (ab "om", 287), (ab "li", 288), (ab "la", 289), (ab "el", 290),
   (ab "ma", 291), (ab "ri", 292), (ab "ic", 293), (ab "co", 294), (ab "ca", 295),
   (ab "tion", 296), (ab "ing", 297), (ab "and", 298), (ab "the", 299), (ab "for", 300),
   (ab "are", 301), (ab "with", 302), (ab "his", 303), (ab "they", 304), (ab "have", 305),
   (ab "this", 306), (ab "will", 307), (ab "you", 308), (ab "that", 309), (ab "but", 310),
   (ab "not", 311), (ab "what", 312), (ab "all", 313), (ab "were", 314), (ab "can", 315),
   (ab "had", 316), (ab "her", 317), (ab "was", 318), (ab "one", 319), (ab "our", 320)]

/-- The special-token table of `create_harmony_special_tokens` (registry.cpp). -/
def specialsList : List (List Nat × Nat) :=
  [(ab "<|start|>", 200000),
   (ab "<|end|>", 200001),
   (ab "<|message|>", 200002),
   (ab "<|channel|>", 200003),
   (ab "<|constrain|>", 200004),
   (ab "<|call|>", 200005),
   (ab "<|reasoning|>", 200006),
   (ab "<|thinking|>", 200007),
   (ab "<|analysis|>", 200008),
   (ab "<|commentary|>", 200009),
   (ab "<|final|>", 200010),
   (ab "<|system|>", 200011),
   (ab "<|user|>", 200012),
   (ab "<|assistant|>", 200013),
   (ab "<|developer|>", 200014),
   (ab "<|tool|>", 200015)]

/-- Lookup in the ordinary encoder map `encoder_`: every single byte 0..255 is
mapped to itself as a rank; the multi-byte keys are exactly `commonPairs`. -/
def encFind (bs : List Nat) : Option Nat :=
  match bs with
  | [b] => if b < 256 then some b else none
  | _ => (commonPairs.find? (fun p => p.1 == bs)).map (fun p => p.2)

/-- Lookup in the ordinary decoder map `decoder_` (built as the inverse of
`encoder_` in the `CoreBPE` constructor). -/
def decFind (r : Nat) : Option (List Nat) :=
  if r < 256 then some [r]
  else (commonPairs.find? (fun p => p.2 == r)).map (fun p => p.1)

/-- Lookup in `special_tokens_decoder_`. -/
def specialDecFind (r : Nat) : Option (List Nat) :=
  (specialsList.find? (fun p => p.2 == r)).map (fun p => p.1)

/-- Whether a rank is one of the reserved special-token ranks. -/
def isReservedRank (r : Nat) : Bool := specialsList.any (fun p => p.2 == r)

/-- The byte classes of the fallback pretokenizer pattern: a byte is
whitespace for `std::regex` exactly when it is one of space, TAB, LF, VT,
FF, CR. -/
def isSpaceByte (b : Nat) : Bool := b == 32 || (9 ≤ b && b ≤ 13)

/-- Pretokenization with the fallback pattern: the successive non-overlapping
matches are the maximal runs of non-whitespace and of whitespace bytes. -/
def splitRuns : List Nat → List (List Nat)
  | [] => []
  | b :: rest =>
    match splitRuns rest with
    | [] => [[b]]
    | [] :: rs => [b] :: [] :: rs
    | (c :: cs) :: rs =>
      if isSpaceByte c == isSpaceByte b then (b :: c :: cs) :: rs
      else [b] :: (c :: cs) :: rs

/-- `byte_pair_merge` (tiktoken.cpp): the list of `(position, rank)` pairs for
every adjacent byte window of `piece` present in the encoder, in increasing
position order. -/
def bytePairMerge : List Nat → List (Nat × Nat)
  | a :: b :: rest =>
    let tailMerges := (bytePairMerge (b :: rest)).map (fun p => (p.1 + 1, p.2))
    match encFind [a, b] with
    | some r => (0, r) :: tailMerges
    | none => tailMerges
  | _ => []

/-- `std::sort` by rank followed by taking `merges[0]`: the minimum-rank
element; among equal ranks the leftmost position wins. -/
def minMerge : List (Nat × Nat) → Option (Nat × Nat)
  | [] => none
  | m :: ms => some (ms.foldl (fun best x => if x.2 < best.2 then x else best) m)

/-- The `parts` list after applying the single best merge at position `pos`
(`byte_pair_encode` lines 298-324): single-byte parts with the two parts at
`pos`, `pos+1` fused; positions past the end leave all parts single bytes,
matching the `merge_pos + 1 < parts.size()` guard. -/
def applyMergeParts : Nat → List Nat → List (List Nat)
  | _, [] => []
  | 0, [a] => [[a]]
  | 0, a :: b :: rest => (a :: [b]) :: rest.map (fun x => [x])
  | n + 1, a :: rest => [a] :: applyMergeParts n rest

/-- `byte_pair_encode` (tiktoken.cpp), with a fuel argument standing for the
C++ recursion (the recursion only ever descends into strictly shorter parts,
so `piece.length + 1` fuel is never exhausted). -/
def bytePairEncodeF : Nat → List Nat → List Nat
  | 0, _ => []
  | fuel + 1, piece =>
    if piece.length == 1 then (encFind piece).toList
    else
      match minMerge (bytePairMerge piece) with
      | none => piece.filterMap (fun b => encFind [b])
      | some m =>
        (applyMergeParts m.1 piece).flatMap (fun part =>
          match encFind part with
          | some r => [r]
          | none => bytePairEncodeF fuel part)

/-- `byte_pair_encode` at its natural fuel. -/
def bytePairEncode (piece : List Nat) : List Nat :=
  bytePairEncodeF (piece.length + 1) piece

/-- `CoreBPE::encode_ordinary`: pretokenize, then BPE-encode each piece. -/
def encodeOrdinary (text : List Nat) : List Nat :=
  (splitRuns text).flatMap bytePairEncode

/-- The exceptions thrown by decoding and parsing. -/
inductive CodecErr where
  | decodeKey (r : Nat)
  | invalidUtf8
deriving DecidableEq

/-- Decoding one rank in `CoreBPE::decode_bytes`: the ordinary decoder is
consulted first, then the special decoder; an unknown rank throws
`DecodeKeyError`. -/
def decodeOne (r : Nat) : Except CodecErr (List Nat) :=
  match decFind r with
  | some bs => .ok bs
  | none =>
    match specialDecFind r with
    | some bs => .ok bs
    | none => .error (.decodeKey r)

/-- `CoreBPE::decode_bytes`: concatenate the byte images of the ranks. -/
def decodeBytes : List Nat → Except CodecErr (List Nat)
  | [] => .ok []
  | t :: rest => do
    let bs ← decodeOne t
    let tail ← decodeBytes rest
    return bs ++ tail

/-- The UTF-8 validation loop of `CoreBPE::decode_utf8` (tiktoken.cpp
lines 205-232). -/
def validUtf8 : List Nat → Bool
  | [] => true
  | c :: rest =>
    if c < 128 then validUtf8 rest
    else if c / 32 == 6 then
      match rest with
      | c1 :: rest1 => c1 / 64 == 2 && validUtf8 rest1
      | [] => false
    else if c / 16 == 14 then
      match rest with
      | c1 :: c2 :: rest2 => c1 / 64 == 2 && c2 / 64 == 2 && validUtf8 rest2
      | _ => false
    else if c / 8 == 30 then
      match rest with
      | c1 :: c2 :: c3 :: rest3 =>
        c1 / 64 == 2 && c2 / 64 == 2 && c3 / 64 == 2 && validUtf8 rest3
      | _ => false
    else false

/-- `CoreBPE::decode_utf8`: decode to bytes, then throw `DecodeError` unless
the bytes validate as UTF-8. -/
def decodeUtf8 (tokens : List Nat) : Except CodecErr (List Nat) := do
  let bs ← decodeBytes tokens
  if validUtf8 bs then return bs else throw .invalidUtf8

/-- The keys of the special-token table, as passed around by
`encode_with_special_tokens`. -/
def allSpecialKeys : List (List Nat) := specialsList.map (fun p => p.1)

/-- The scan step of `CoreBPE::encode` at one position: an entry of the
special table is taken when it is allowed (or the allowed set is empty) and
its literal occurs at `pos`.  No special literal is a prefix of another, so
at most one entry can be taken and the unordered-map iteration order of the
C++ loop is immaterial. -/
def findSpecialAt (allowed : List (List Nat)) (s : List Nat) (pos : Nat) :
    Option (List Nat × Nat) :=
  specialsList.find? (fun p =>
    (allowed.contains p.1 || allowed.isEmpty) && p.1.isPrefixOf (s.drop pos))

/-- The `while (pos < remaining_text.length())` loop of `CoreBPE::encode`
(tiktoken.cpp lines 119-158), fueled; every iteration either advances `pos`
or strictly shortens `remaining`, so `2 * |text| + 1` fuel is never
exhausted. -/
def encodeLoopF (allowed : List (List Nat)) :
    Nat → List Nat → Nat → List Nat → Nat → List Nat × Nat
  | 0, _, _, acc, lastLen => (acc, lastLen)
  | fuel + 1, remaining, pos, acc, lastLen =>
    if pos < remaining.length then
      match findSpecialAt allowed remaining pos with
      | some (tok, rank) =>
        let acc1 := if 0 < pos then acc ++ encodeOrdinary (remaining.take pos) else acc
        encodeLoopF allowed fuel (remaining.drop (pos + tok.length)) 0 (acc1 ++ [rank]) 1
      | none => encodeLoopF allowed fuel remaining (pos + 1) acc lastLen
    else
      if remaining.isEmpty then (acc, lastLen)
      else
        let ts := encodeOrdinary remaining
        (acc ++ ts, ts.length)

/-- `CoreBPE::encode(text, allowed_special)`: returns the rank list and
`last_piece_token_len`. -/
def encodeSpecial (text : List Nat) (allowed : List (List Nat)) : List Nat × Nat :=
  if specialsList.isEmpty then (encodeOrdinary text, (encodeOrdinary text).length)
  else encodeLoopF allowed (2 * text.length + 1) text 0 [] 0

/-- `CoreBPE::encode_with_special_tokens`: all specials allowed. -/
def encodeWithSpecialTokens (text : List Nat) : List Nat :=
  (encodeSpecial text allSpecialKeys).1

/-! ## The chat data model (chat.hpp) -/

inductive Role where
  | user
  | assistant
  | system
  | developer
  | tool
deriving DecidableEq

inductive ReasoningEffort where
  | low
  | medium
  | high
deriving DecidableEq

/-- `reasoning_effort_to_string` (chat.cpp). -/
def reasoningEffortToString : ReasoningEffort → List Nat
  | .low => ab "low"
  | .medium => ab "medium"
  | .high => ab "high"

/-- `ToolDescription`; the `parameters` field stands for the serialized
output of `parameters->dump()` (the JSON codec is an external collaborator,
so the dumped string is taken as the datum). -/
structure ToolDescription where
  name : List Nat
  descr : List Nat
  parameters : Option (List Nat)
deriving DecidableEq

/-- `ToolNamespaceConfig`. -/
structure ToolNamespaceConfig where
  name : List Nat
  descr : Option (List Nat)
  tools : List ToolDescription
deriving DecidableEq

/-- `ChannelConfig`. -/
structure ChannelConfig where
  valid_channels : List (List Nat)
  channel_required : Bool
deriving DecidableEq

/-- `SystemContent`; the `tools` map is modelled as an association list in
iteration order. -/
structure SystemContent where
  model_identity : Option (List Nat) := none
  reasoning_effort : Option ReasoningEffort := none
  tools : Option (List (List Nat × ToolNamespaceConfig)) := none
  conversation_start_date : Option (List Nat) := none
  knowledge_cutoff : Option (List Nat) := none
  channel_config : Option ChannelConfig := none
deriving DecidableEq

/-- `DeveloperContent`. -/
structure DeveloperContent where
  instructions : Option (List Nat) := none
  tools : Option (List (List Nat × ToolNamespaceConfig)) := none
deriving DecidableEq

/-- The `Content` variant. -/
inductive Content where
  | text (t : List Nat)
  | system (sc : SystemContent)
  | developer (dc : DeveloperContent)
deriving DecidableEq

/-- `Author`. -/
structure Author where
  role : Role
  name : Option (List Nat) := none
deriving DecidableEq

/-- `Message`. -/
structure Message where
  author : Author
  recipient : Option (List Nat) := none
  content : List Content := []
  channel : Option (List Nat) := none
  content_type : Option (List Nat) := none
deriving DecidableEq

/-- `Conversation`. -/
structure Conversation where
  messages : List Message
deriving DecidableEq

/-! ## The protocol renderer (encoding.cpp) -/

/-- `HarmonyEncoding::role_to_special_token`. -/
def roleToSpecialToken : Role → List Nat
  | .system => ab "<|system|>"
  | .user => ab "<|user|>"
  | .assistant => ab "<|assistant|>"
  | .developer => ab "<|developer|>"
  | .tool => ab "<|tool|>"

/-- `HarmonyEncoding::get_special_token`: check membership in the special
table, then take the first rank of `encode_with_special_tokens`; `none`
models the `std::runtime_error` throw. -/
def getSpecialToken (tok : List Nat) : Option Nat :=
  if specialsList.any (fun p => p.1 == tok) then
    match encodeWithSpecialTokens tok with
    | [] => none
    | r :: _ => some r
  else none

/-- The text block `render_message` builds for a tools map (both the
system-content `Available tools:` section and the developer-content
`Developer tools:` section render namespaces and tools this way). -/
def toolsText (tools : List (List Nat × ToolNamespaceConfig)) : List Nat :=
  tools.flatMap (fun p =>
    ab "# " ++ p.2.name ++
    (match p.2.descr with
     | some d => ab "\n" ++ d
     | none => []) ++
    ab "\n" ++
    p.2.tools.flatMap (fun t =>
      ab "## " ++ t.name ++ ab "\n" ++ t.descr ++ ab "\n" ++
      (match t.parameters with
       | some ps => ab "Parameters: " ++ ps ++ ab "\n"
       | none => []) ++
      ab "\n"))

/-- The `std::stringstream` block `render_message` builds for a
`SystemContent` (encoding.cpp lines 183-232). -/
def systemText (sc : SystemContent) : List Nat :=
  (match sc.model_identity with
   | some mi => ab "Model: " ++ mi ++ ab "\n"
   | none => []) ++
  (match sc.reasoning_effort with
   | some e => ab "Reasoning effort: " ++ reasoningEffortToString e ++ ab "\n"
   | none => []) ++
  (match sc.knowledge_cutoff with
   | some kc => ab "Knowledge cutoff: " ++ kc ++ ab "\n"
   | none => []) ++
  (match sc.conversation_start_date with
   | some d => ab "Current date: " ++ d ++ ab "\n"
   | none => []) ++
  (match sc.tools with
   | some ts => ab "\nAvailable tools:\n" ++ toolsText ts
   | none => []) ++
  (match sc.channel_config with
   | some cc =>
     if cc.channel_required && !cc.valid_channels.isEmpty then
       ab "\nRequired channels: " ++ (cc.valid_channels.intersperse (ab ", ")).flatten ++ ab "\n"
     else []
   | none => [])

/-- The block `render_message` builds for a `DeveloperContent`
(encoding.cpp lines 236-261). -/
def developerText (dc : DeveloperContent) : List Nat :=
  (match dc.instructions with
   | some i => i ++ ab "\n"
   | none => []) ++
  (match dc.tools with
   | some ts => ab "\nDeveloper tools:\n" ++ toolsText ts
   | none => [])

/-- The body ranks `render_message` appends for one content item. -/
def renderContent : Content → List Nat
  | .text t => encodeOrdinary t
  | .system sc => encodeOrdinary (systemText sc)
  | .developer dc => encodeOrdinary (developerText dc)

/-- `HarmonyEncoding::render_message` (encoding.cpp lines 142-272); `none`
models a thrown `std::runtime_error` from `get_special_token` (never hit for
this encoding). -/
def renderMessage (m : Message) : Option (List Nat) := do
  let st ← getSpecialToken (ab "<|start|>")
  let rt ← getSpecialToken (roleToSpecialToken m.author.role)
  let chanPart ←
    match m.channel with
    | none => pure []
    | some ch => do
      let ct ← getSpecialToken (ab "<|channel|>")
      pure (ct :: encodeOrdinary ch)
  let recipPart :=
    match m.recipient with
    | none => []
    | some rcp => encodeOrdinary (ab " to=" ++ rcp)
  let ctypePart ←
    match m.content_type with
    | none => pure []
    | some cty => do
      let kt ← getSpecialToken (ab "<|constrain|>")
      pure (kt :: encodeOrdinary cty)
  let mt ← getSpecialToken (ab "<|message|>")
  let body := (m.content.map renderContent).flatten
  let et ← getSpecialToken (ab "<|end|>")
  return [st, rt] ++ chanPart ++ recipPart ++ ctypePart ++ [mt] ++ body ++ [et]

/-- `HarmonyEncoding::render_conversation`. -/
def renderConversation (c : Conversation) : Option (List Nat) := do
  let tss ← c.messages.mapM renderMessage
  return tss.flatten

/-- `HarmonyEncoding::render_conversation_for_completion`: the conversation's
tokens followed by `<|start|>` and the special token of the next turn's
role. -/
def renderConversationForCompletion (c : Conversation) (nextTurnRole : Role) :
    Option (List Nat) := do
  let base ← renderConversation c
  let st ← getSpecialToken (ab "<|start|>")
  let rt ← getSpecialToken (roleToSpecialToken nextTurnRole)
  return base ++ [st, rt]

/-! ## The streamable parser (encoding.cpp lines 346-474) -/

inductive StreamState where
  | expectStart
  | header
  | content
deriving DecidableEq

/-- The mutable state of a `StreamableParser` (the construction-time
`next_role_` argument is stored but never read by `process`). -/
structure ParserState where
  nextRole : Option Role := none
  tokens : List Nat := []
  messages : List Message := []
  state : StreamState := .expectStart
  lastContentDelta : Option (List Nat) := none
  currentContent : List Nat := []
  currentRole : Option Role := none
  currentChannel : Option (List Nat) := none
  currentRecipient : Option (List Nat) := none
  currentContentType : Option (List Nat) := none
deriving DecidableEq

/-- A freshly constructed `StreamableParser`. -/
def initParser (role : Option Role) : ParserState := { nextRole := role }

/-- `StreamableParser::parse_role_from_token`. -/
def parseRoleFromToken (txt : List Nat) : Option Role :=
  if txt == ab "<|system|>" then some .system
  else if txt == ab "<|user|>" then some .user
  else if txt == ab "<|assistant|>" then some .assistant
  else if txt == ab "<|developer|>" then some .developer
  else if txt == ab "<|tool|>" then some .tool
  else none

/-- `StreamableParser::finalize_current_message`: only acts when a current
role is set; appends the completed message and clears every per-message
field. -/
def finalizeCurrentMessage (st : ParserState) : ParserState :=
  match st.currentRole with
  | none => st
  | some r =>
    let msg : Message :=
      { author := ⟨r, none⟩
        recipient := st.currentRecipient
        content := [.text st.currentContent]
        channel := st.currentChannel
        content_type := st.currentContentType }
    { st with
        messages := st.messages ++ [msg]
        currentContent := []
        currentRole := none
        currentChannel := none
        currentRecipient := none
        currentContentType := none }

/-- The state-machine switch of `StreamableParser::process` after the token's
text has been decoded.  The `<|channel|>`, `<|constrain|>` and `<|message|>`
arms of the C++ switch are empty (comments only). -/
def stepParser (st : ParserState) (txt : List Nat) : ParserState :=
  match st.state with
  | .expectStart =>
    if txt == ab "<|start|>" then { st with state := .header } else st
  | .header =>
    let r := parseRoleFromToken txt
    if r.isSome then { st with currentRole := r, state := .content }
    else { st with currentRole := r }
  | .content =>
    if txt == ab "<|channel|>" then st
    else if txt == ab "<|constrain|>" then st
    else if txt == ab "<|message|>" then st
    else if txt == ab "<|end|>" then
      { finalizeCurrentMessage st with state := .expectStart }
    else
      { st with
          currentContent := st.currentContent ++ txt
          lastContentDelta := some txt }

/-- `StreamableParser::process`: store the token, decode it (which may throw
`DecodeKeyError` or `DecodeError`), then run the state machine. -/
def processTok (st : ParserState) (tok : Nat) : Except CodecErr ParserState :=
  let st1 := { st with tokens := st.tokens ++ [tok] }
  match decodeUtf8 [tok] with
  | .error e => .error e
  | .ok txt => .ok (stepParser st1 txt)

/-- `StreamableParser::process_eos`. -/
def processEos (st : ParserState) : ParserState :=
  if st.state == .content && !st.currentContent.isEmpty then
    finalizeCurrentMessage st
  else st

/-- Feeding a token list one token at a time. -/
def processAll (st : ParserState) : List Nat → Except CodecErr ParserState
  | [] => .ok st
  | t :: ts => do
    let st1 ← processTok st t
    processAll st1 ts

/-! ## The completion parser (encoding.cpp lines 297-344)

`HarmonyEncoding::parse_harmony_format` runs `std::sregex_iterator` with the
ECMAScript pattern

  `<\|start\|>([^<]+)(?:<\|channel\|>([^<]+))?(?:\s+to=([^<\|]+))?`
  `(?:<\|constrain\|>([^<]+))?<\|message\|>(.*?)<\|end\|>`

over the decoded text.  The functions below implement that one pattern with
ECMAScript disambiguation: greedy `+` and `(?:...)?` try the longer
alternative first, lazy `.*?` tries the shorter first, and the iterator takes
the leftmost match and resumes after it. -/

/-- A successful match: the five capture groups (groups 2-4 optional) and the
remainder of the input after the match. -/
structure HarmonyRegexMatch where
  roleTxt : List Nat
  channelTxt : Option (List Nat)
  recipientTxt : Option (List Nat)
  ctypeTxt : Option (List Nat)
  bodyTxt : List Nat
  rest : List Nat
deriving DecidableEq

/-- Match a literal and continue. -/
def matchLit (lit s : List Nat) (k : List Nat → Option HarmonyRegexMatch) :
    Option HarmonyRegexMatch :=
  if lit.isPrefixOf s then k (s.drop lit.length) else none

/-- Backtracking for a greedy repetition: try capture length `n`, then
shorter, down to length 1. -/
def greedyTry (s : List Nat) (k : List Nat → List Nat → Option HarmonyRegexMatch) :
    Nat → Option HarmonyRegexMatch
  | 0 => none
  | n + 1 => (k (s.take (n + 1)) (s.drop (n + 1))).orElse (fun _ => greedyTry s k n)

/-- Greedy `pred+`: longest capture first, at least one byte. -/
def greedyPlus (pred : Nat → Bool) (s : List Nat)
    (k : List Nat → List Nat → Option HarmonyRegexMatch) : Option HarmonyRegexMatch :=
  greedyTry s k (s.takeWhile pred).length

/-- Backtracking for the lazy star: try capture length `i` first, then grow,
for `n` attempts in total. -/
def lazyTry (s : List Nat) (k : List Nat → List Nat → Option HarmonyRegexMatch) :
    Nat → Nat → Option HarmonyRegexMatch
  | _, 0 => none
  | i, n + 1 => (k (s.take i) (s.drop i)).orElse (fun _ => lazyTry s k (i + 1) n)

/-- Lazy `pred*?`: shortest capture first (ECMAScript `.` excludes the line
terminators LF and CR, which is encoded in `pred`). -/
def lazyStar (pred : Nat → Bool) (s : List Nat)
    (k : List Nat → List Nat → Option HarmonyRegexMatch) : Option HarmonyRegexMatch :=
  lazyTry s k 0 ((s.takeWhile pred).length + 1)

/-- Group `(?:<\|channel\|>([^<]+))?`. -/
def optChannelGroup (s : List Nat)
    (k : Option (List Nat) → List Nat → Option HarmonyRegexMatch) : Option HarmonyRegexMatch :=
  (matchLit (ab "<|channel|>") s (fun s1 =>
    greedyPlus (fun b => b != 60) s1 (fun g s2 => k (some g) s2))).orElse
    (fun _ => k none s)

/-- Group `(?:\s+to=([^<\|]+))?`. -/
def optRecipientGroup (s : List Nat)
    (k : Option (List Nat) → List Nat → Option HarmonyRegexMatch) : Option HarmonyRegexMatch :=
  (greedyPlus isSpaceByte s (fun _ s1 =>
    matchLit (ab "to=") s1 (fun s2 =>
      greedyPlus (fun b => b != 60 && b != 124) s2 (fun g s3 => k (some g) s3)))).orElse
    (fun _ => k none s)

/-- Group `(?:<\|constrain\|>([^<]+))?`. -/
def optConstrainGroup (s : List Nat)
    (k : Option (List Nat) → List Nat → Option HarmonyRegexMatch) : Option HarmonyRegexMatch :=
  (matchLit (ab "<|constrain|>") s (fun s1 =>
    greedyPlus (fun b => b != 60) s1 (fun g s2 => k (some g) s2))).orElse
    (fun _ => k none s)

/-- Attempt the whole pattern anchored at the start of `s`. -/
def matchHarmonyAt (s : List Nat) : Option HarmonyRegexMatch :=
  matchLit (ab "<|start|>") s (fun s1 =>
    greedyPlus (fun b => b != 60) s1 (fun g1 s2 =>
      optChannelGroup s2 (fun g2 s3 =>
        optRecipientGroup s3 (fun g3 s4 =>
          optConstrainGroup s4 (fun g4 s5 =>
            matchLit (ab "<|message|>") s5 (fun s6 =>
              lazyStar (fun b => b != 10 && b != 13) s6 (fun g5 s7 =>
                matchLit (ab "<|end|>") s7 (fun s8 =>
                  some ⟨g1, g2, g3, g4, g5, s8⟩))))))))

/-- The leftmost match in `s`, as `std::sregex_iterator` finds it. -/
def findFirstHarmonyMatch : List Nat → Option HarmonyRegexMatch
  | [] => matchHarmonyAt []
  | s@(_ :: tail) => (matchHarmonyAt s).orElse (fun _ => findFirstHarmonyMatch tail)

/-- Building a `Message` from one regex match (encoding.cpp lines 309-340);
an unrecognized role string falls back to `User`. -/
def messageOfMatch (hm : HarmonyRegexMatch) : Message :=
  let role :=
    if hm.roleTxt == ab "system" then Role.system
    else if hm.roleTxt == ab "user" then Role.user
    else if hm.roleTxt == ab "assistant" then Role.assistant
    else if hm.roleTxt == ab "developer" then Role.developer
    else if hm.roleTxt == ab "tool" then Role.tool
    else Role.user
  { author := ⟨role, none⟩
    recipient := hm.recipientTxt
    content := [.text hm.bodyTxt]
    channel := hm.channelTxt
    content_type := hm.ctypeTxt }

/-- The `sregex_iterator` loop, fueled (every match consumes at least one
byte, so `|s| + 1` fuel is never exhausted). -/
def parseHarmonyAux : Nat → List Nat → List Message
  | 0, _ => []
  | fuel + 1, s =>
    match findFirstHarmonyMatch s with
    | none => []
    | some hm => messageOfMatch hm :: parseHarmonyAux fuel hm.rest

/-- `HarmonyEncoding::parse_harmony_format`. -/
def parseHarmonyFormat (s : List Nat) : List Message :=
  parseHarmonyAux (s.length + 1) s

/-- `HarmonyEncoding::parse_messages_from_completion_tokens`: decode the
tokens to text, then regex-parse (the optional role argument is ignored by
the C++). -/
def parseMessagesFromCompletionTokens (tokens : List Nat) :
    Except CodecErr (List Message) :=
  (decodeUtf8 tokens).map parseHarmonyFormat

/-- The spec's `strip_empty`: drop messages whose content list is empty
(stated from the spec, for comparison with the code in the round-trip
claim). -/
def stripEmpty (msgs : List Message) : List Message :=
  msgs.filter (fun m => !m.content.isEmpty)

/-! ## Facts about the vocabulary tables -/

/-- Every multi-byte vocabulary entry has a rank between 256 and 320 and is
recovered by the decoder built in the `CoreBPE` constructor. -/
lemma commonPairs_facts :
    ∀ p ∈ commonPairs, 256 ≤ p.2 ∧ p.2 ≤ 320 ∧ decFind p.2 = some p.1 := by
  decide

/-- Every reserved special rank is at least 200000. -/
lemma specials_ge : ∀ p ∈ specialsList, 200000 ≤ p.2 := by decide

/-- The encoder and the decoder agree: any rank the encoder assigns decodes
back to the same byte string. -/
lemma decFind_of_encFind {bs : List Nat} {r : Nat} (h : encFind bs = some r) :
    decFind r = some bs := by
  match bs with
  | [b] =>
    simp only [encFind] at h
    split at h
    · next hb =>
      cases h
      simp [decFind, hb]
    · cases h
  | [] =>
    have h0 : encFind ([] : List Nat) = none := by decide
    rw [h0] at h
    cases h
  | a :: b :: l =>
    simp only [encFind, Option.map_eq_some'] at h
    obtain ⟨p, hp, hr⟩ := h
    have hmem := List.mem_of_find?_eq_some hp
    have heq := List.find?_some hp
    have h1 : p.1 = a :: b :: l := by simpa using heq
    subst hr
    rw [← h1]
    exact (commonPairs_facts p hmem).2.2

/-- Any rank the encoder assigns is at most 320. -/
lemma encFind_le {bs : List Nat} {r : Nat} (h : encFind bs = some r) : r ≤ 320 := by
  match bs with
  | [b] =>
    simp only [encFind] at h
    split at h
    · next hb => cases h; omega
    · cases h
  | [] =>
    have h0 : encFind ([] : List Nat) = none := by decide
    rw [h0] at h
    cases h
  | a :: b :: l =>
    simp only [encFind, Option.map_eq_some'] at h
    obtain ⟨p, hp, hr⟩ := h
    have hmem := List.mem_of_find?_eq_some hp
    subst hr
    exact (commonPairs_facts p hmem).2.1

/-- A rank at most 320 is not a reserved special rank. -/
lemma not_reserved_of_le {r : Nat} (h : r ≤ 320) : isReservedRank r = false := by
  rw [isReservedRank, List.any_eq_false]
  intro p hp
  have := specials_ge p hp
  simp only [beq_iff_eq]
  omega

/-- Decoding one ordinary rank of the encoder. -/
lemma decodeOne_of_encFind {bs : List Nat} {r : Nat} (h : encFind bs = some r) :
    decodeOne r = .ok bs := by
  simp [decodeOne, decFind_of_encFind h]

/-- A byte below 256 is its own rank. -/
lemma encFind_single {b : Nat} (h : b < 256) : encFind [b] = some b := by
  simp [encFind, h]

/-! ## Losslessness of the BPE core -/

lemma foldl_min_mem (ms : List (Nat × Nat)) (m : Nat × Nat) :
    ms.foldl (fun best x => if x.2 < best.2 then x else best) m ∈ m :: ms := by
  induction ms generalizing m with
  | nil => simp
  | cons x ms ih =>
    simp only [List.foldl_cons]
    have h := ih (if x.2 < m.2 then x else m)
    rw [List.mem_cons] at h
    rcases h with h | h
    · rw [h]
      split
      · simp
      · simp
    · simp [List.mem_cons, h]

lemma minMerge_mem {l : List (Nat × Nat)} {m : Nat × Nat} (h : minMerge l = some m) :
    m ∈ l := by
  match l with
  | [] => simp [minMerge] at h
  | x :: xs =>
    simp only [minMerge, Option.some_inj] at h
    subst h
    exact foldl_min_mem xs x

lemma flatten_map_singleton (l : List Nat) :
    (l.map (fun x => [x])).flatten = l := by
  induction l with
  | nil => rfl
  | cons a l ih => simp [ih]

lemma applyMergeParts_flatten (pos : Nat) (piece : List Nat) :
    (applyMergeParts pos piece).flatten = piece := by
  induction piece generalizing pos with
  | nil => cases pos <;> rfl
  | cons a rest ih =>
    cases pos with
    | zero =>
      match rest with
      | [] => rfl
      | b :: rest1 => simp [applyMergeParts, flatten_map_singleton]
    | succ n => simpa [applyMergeParts] using ih n

/-- The property of a part that makes the merge output decodable. -/
def GoodPart (part : List Nat) : Prop :=
  ∃ rk, encFind part = some rk ∧ decodeOne rk = .ok part

lemma goodPart_single {b : Nat} (h : b < 256) : GoodPart [b] :=
  ⟨b, encFind_single h, decodeOne_of_encFind (encFind_single h)⟩

/-- Every part produced by applying a merge that `byte_pair_merge` found is
in the encoder's domain. -/
lemma applyMergeParts_good (piece : List Nat) (hb : ∀ b ∈ piece, b < 256)
    (pos r : Nat) (hmem : (pos, r) ∈ bytePairMerge piece) :
    ∀ part ∈ applyMergeParts pos piece, GoodPart part := by
  induction piece generalizing pos r with
  | nil => simp [bytePairMerge] at hmem
  | cons a rest ih =>
    match rest with
    | [] => simp [bytePairMerge] at hmem
    | b :: rest1 =>
      have tailCase :
          (pos, r) ∈ (bytePairMerge (b :: rest1)).map (fun p => (p.1 + 1, p.2)) →
          ∀ part ∈ applyMergeParts pos (a :: b :: rest1), GoodPart part := by
        intro htail part hpart
        rw [List.mem_map] at htail
        obtain ⟨q, hq, hqeq⟩ := htail
        rw [Prod.mk.injEq] at hqeq
        obtain ⟨hpos, hr⟩ := hqeq
        subst hpos
        subst hr
        rw [show applyMergeParts (q.1 + 1) (a :: b :: rest1) =
              [a] :: applyMergeParts q.1 (b :: rest1) from rfl,
            List.mem_cons] at hpart
        rcases hpart with h1 | h1
        · exact h1 ▸ goodPart_single (hb a (by simp))
        · exact ih (fun x hx => hb x (by simp [hx])) q.1 q.2 hq part h1
      rcases hfind : encFind [a, b] with _ | r0
      · rw [bytePairMerge] at hmem
        simp only [hfind] at hmem
        exact tailCase hmem
      · rw [bytePairMerge] at hmem
        simp only [hfind, List.mem_cons] at hmem
        rcases hmem with hhead | htail
        · rw [Prod.mk.injEq] at hhead
          obtain ⟨hpos, hr⟩ := hhead
          subst hpos
          subst hr
          intro part hpart
          rw [show applyMergeParts 0 (a :: b :: rest1) =
                [a, b] :: rest1.map (fun x => [x]) from rfl,
              List.mem_cons] at hpart
          rcases hpart with h1 | h1
          · exact h1 ▸ ⟨r, hfind, decodeOne_of_encFind hfind⟩
          · rw [List.mem_map] at h1
            obtain ⟨x, hx, hxeq⟩ := h1
            exact hxeq ▸ goodPart_single (hb x (by simp [hx]))
        · exact tailCase htail

/-- `decodeBytes` on a cons, written with explicit binds. -/
lemma decodeBytes_cons_eq (t : Nat) (ts : List Nat) :
    decodeBytes (t :: ts) =
      Except.bind (decodeOne t) (fun bs =>
        Except.bind (decodeBytes ts) (fun tail => .ok (bs ++ tail))) := rfl

lemma decodeBytes_cons {t : Nat} {ts : List Nat} {b1 b2 : List Nat}
    (h1 : decodeOne t = .ok b1) (h2 : decodeBytes ts = .ok b2) :
    decodeBytes (t :: ts) = .ok (b1 ++ b2) := by
  rw [decodeBytes_cons_eq, h1, h2]
  rfl

lemma decodeBytes_append {l1 l2 : List Nat} {b1 b2 : List Nat}
    (h1 : decodeBytes l1 = .ok b1) (h2 : decodeBytes l2 = .ok b2) :
    decodeBytes (l1 ++ l2) = .ok (b1 ++ b2) := by
  induction l1 generalizing b1 with
  | nil =>
    rw [show decodeBytes [] = .ok [] from rfl] at h1
    injection h1 with h1
    subst h1
    simpa using h2
  | cons t ts ih =>
    rw [decodeBytes_cons_eq] at h1
    rcases ht : decodeOne t with e | bs
    all_goals rw [ht] at h1
    · cases h1
    · rcases hts : decodeBytes ts with e | tl
      all_goals rw [hts] at h1
      · cases h1
      · simp only [Except.bind, Except.ok.injEq] at h1
        subst h1
        rw [List.cons_append]
        rw [List.append_assoc]
        exact decodeBytes_cons ht (ih hts)

/-- Decoding the rank lists produced for a list of good parts recovers their
concatenation. -/
lemma decode_flatMap_good (g : List Nat → List Nat) (parts : List (List Nat))
    (h : ∀ part ∈ parts, GoodPart part) :
    decodeBytes (parts.flatMap (fun part =>
      match encFind part with
      | some r => [r]
      | none => g part)) = .ok parts.flatten := by
  induction parts with
  | nil => rfl
  | cons p ps ih =>
    obtain ⟨rk, henc, hdec⟩ := h p (by simp)
    have htail := ih (fun q hq => h q (by simp [hq]))
    simp only [List.flatMap_cons, henc, List.flatten_cons]
    have hsingle : decodeBytes [rk] = .ok p := by
      rw [decodeBytes_cons_eq, hdec]
      simp [Except.bind, show decodeBytes [] = .ok [] from rfl]
    exact decodeBytes_append hsingle htail

/-- Decoding a list of single-byte ranks. -/
lemma decodeBytes_singles {l : List Nat} (h : ∀ b ∈ l, b < 256) :
    decodeBytes l = .ok l := by
  induction l with
  | nil => rfl
  | cons b bs ih =>
    have h1 : decodeOne b = .ok [b] :=
      decodeOne_of_encFind (encFind_single (h b (by simp)))
    have h2 := ih (fun x hx => h x (by simp [hx]))
    simpa using decodeBytes_cons h1 h2

lemma filterMap_encFind_single {l : List Nat} (h : ∀ b ∈ l, b < 256) :
    l.filterMap (fun b => encFind [b]) = l := by
  induction l with
  | nil => rfl
  | cons b bs ih =>
    rw [List.filterMap_cons, encFind_single (h b (by simp))]
    simp [ih (fun x hx => h x (by simp [hx]))]

/-- Losslessness of `byte_pair_encode` on byte pieces, for any fuel of at
least one. -/
lemma bytePairEncodeF_decode (fuel : Nat) (piece : List Nat)
    (hb : ∀ b ∈ piece, b < 256) :
    decodeBytes (bytePairEncodeF (fuel + 1) piece) = .ok piece := by
  rw [bytePairEncodeF]
  split
  · next hlen =>
    obtain ⟨b, rfl⟩ := List.length_eq_one.mp (by simpa using hlen)
    have hb1 := hb b (by simp)
    rw [encFind_single hb1]
    exact decodeBytes_singles (by simpa using hb1)
  · rcases hmin : minMerge (bytePairMerge piece) with _ | m
    · simp only [hmin]
      rw [filterMap_encFind_single hb]
      exact decodeBytes_singles hb
    · simp only [hmin]
      have hmem := minMerge_mem hmin
      have hgood := applyMergeParts_good piece hb m.1 m.2 hmem
      calc decodeBytes ((applyMergeParts m.1 piece).flatMap
            (fun part => match encFind part with
              | some r => [r]
              | none => bytePairEncodeF fuel part))
          = .ok (applyMergeParts m.1 piece).flatten :=
            decode_flatMap_good _ _ hgood
        _ = .ok piece := by rw [applyMergeParts_flatten]

lemma bytePairEncode_decode (piece : List Nat) (hb : ∀ b ∈ piece, b < 256) :
    decodeBytes (bytePairEncode piece) = .ok piece :=
  bytePairEncodeF_decode piece.length piece hb

lemma splitRuns_flatten (s : List Nat) : (splitRuns s).flatten = s := by
  induction s with
  | nil => rfl
  | cons b rest ih =>
    rcases hsr : splitRuns rest with _ | ⟨r0, rs⟩
    all_goals rw [hsr] at ih
    all_goals rw [splitRuns, hsr]
    · simp only [List.flatten_nil] at ih
      simp [← ih]
    · rcases r0 with _ | ⟨c, cs⟩
      · simp only [List.flatten_cons, List.nil_append] at ih
        simp only [List.flatten_cons, List.singleton_append, List.nil_append]
        rw [ih]
      · simp only [List.flatten_cons, List.cons_append] at ih
        split
        · next heq => cases heq
        · next heq =>
          injection heq with h1 h2
          cases h1
        · next heq =>
          injection heq with h1 h2
          injection h1 with hc hcs
          subst hc
          subst hcs
          subst h2
          split
          · simp only [List.flatten_cons, List.cons_append]
            rw [ih]
          · simp only [List.flatten_cons, List.cons_append, List.singleton_append]
            rw [ih]
            simp

/-- Every rank `byte_pair_encode` emits was assigned by the ordinary
encoder. -/
lemma bytePairEncodeF_mem {fuel : Nat} {piece : List Nat} {r : Nat}
    (h : r ∈ bytePairEncodeF fuel piece) : ∃ bs, encFind bs = some r := by
  induction fuel generalizing piece with
  | zero => simp [bytePairEncodeF] at h
  | succ fuel ih =>
    rw [bytePairEncodeF] at h
    split at h
    · next hlen =>
      rcases henc : encFind piece with _ | r0
      all_goals rw [henc] at h
      · simp at h
      · simp only [Option.toList_some, List.mem_singleton] at h
        exact ⟨piece, h ▸ henc⟩
    · split at h
      · rw [List.mem_filterMap] at h
        obtain ⟨b, _, hb⟩ := h
        exact ⟨[b], hb⟩
      · rw [List.mem_flatMap] at h
        obtain ⟨part, _, hpart⟩ := h
        rcases henc : encFind part with _ | r0
        all_goals rw [henc] at hpart
        · exact ih hpart
        · simp only [List.mem_singleton] at hpart
          exact ⟨part, hpart ▸ henc⟩

/-- Every rank `encode_ordinary` emits was assigned by the ordinary
encoder. -/
lemma encodeOrdinary_mem {s : List Nat} {r : Nat} (h : r ∈ encodeOrdinary s) :
    ∃ bs, encFind bs = some r := by
  rw [encodeOrdinary, List.mem_flatMap] at h
  obtain ⟨piece, _, hr⟩ := h
  exact bytePairEncodeF_mem hr

/-- C2.  For every byte string `s`, decoding (to bytes) the rank list
returned by `encode_ordinary(s)` over the loaded harmony vocabulary yields
`s` byte for byte. -/
theorem encode_ordinary_decode_roundtrip (s : List Nat) (hbytes : ∀ b ∈ s, b < 256) :
    decodeBytes (encodeOrdinary s) = .ok s := by
  rw [encodeOrdinary]
  have main : ∀ pieces : List (List Nat),
      (∀ p ∈ pieces, ∀ b ∈ p, b < 256) →
      decodeBytes (pieces.flatMap bytePairEncode) = .ok pieces.flatten := by
    intro pieces hp
    induction pieces with
    | nil => rfl
    | cons p ps ih =>
      have h1 := bytePairEncode_decode p (hp p (by simp))
      have h2 := ih (fun q hq => hp q (by simp [hq]))
      simp only [List.flatMap_cons, List.flatten_cons]
      exact decodeBytes_append h1 h2
  have hsub : ∀ p ∈ splitRuns s, ∀ b ∈ p, b < 256 := by
    intro p hp b hb
    apply hbytes
    rw [← splitRuns_flatten s]
    exact List.mem_flatten.mpr ⟨p, hp, hb⟩
  rw [main (splitRuns s) hsub, splitRuns_flatten]

/-- Witness for C2 at a concrete byte string. -/
theorem encode_ordinary_decode_roundtrip_witness :
    decodeBytes (encodeOrdinary (ab "hello world")) = .ok (ab "hello world") :=
  encode_ordinary_decode_roundtrip (ab "hello world") (by decide)

/-- C3.  Every rank in the list produced by `encode_ordinary` lies outside
the reserved special-token range. -/
theorem encode_ordinary_no_reserved_rank (s : List Nat) (r : Nat)
    (h : r ∈ encodeOrdinary s) : isReservedRank r = false := by
  obtain ⟨bs, hbs⟩ := encodeOrdinary_mem h
  exact not_reserved_of_le (encFind_le hbs)

/-- Witness for C3 at a concrete input and emitted rank. -/
theorem encode_ordinary_no_reserved_rank_witness :
    isReservedRank 256 = false :=
  encode_ordinary_no_reserved_rank (ab "the") 256 (by decide)

/-! ## The trailing tokens of `render_conversation_for_completion` -/

/-- The rank of each role's special token in the harmony table. -/
def roleRank : Role → Nat
  | .system => 200011
  | .user => 200012
  | .assistant => 200013
  | .developer => 200014
  | .tool => 200015

lemma getSpecialToken_start : getSpecialToken (ab "<|start|>") = some 200000 := by
  decide

lemma getSpecialToken_end : getSpecialToken (ab "<|end|>") = some 200001 := by
  decide

lemma getSpecialToken_message : getSpecialToken (ab "<|message|>") = some 200002 := by
  decide

lemma getSpecialToken_channel : getSpecialToken (ab "<|channel|>") = some 200003 := by
  decide

lemma getSpecialToken_constrain : getSpecialToken (ab "<|constrain|>") = some 200004 := by
  decide

lemma getSpecialToken_role (r : Role) :
    getSpecialToken (roleToSpecialToken r) = some (roleRank r) := by
  cases r
  all_goals decide

/-- C4.  The token list returned by `render_conversation_for_completion`
ends with exactly two appended ranks: the rank of `<|start|>` followed by
the rank of the special token for the next turn's role. -/
theorem render_for_completion_ends_with_start_role (c : Conversation) (r : Role)
    (ts : List Nat) (h : renderConversationForCompletion c r = some ts) :
    ∃ base, renderConversation c = some base ∧ ts = base ++ [200000, roleRank r] := by
  rcases hbase : renderConversation c with _ | base
  · rw [renderConversationForCompletion, hbase] at h
    cases h
  · rw [renderConversationForCompletion, hbase] at h
    simp only [Option.bind_eq_bind, Option.some_bind, getSpecialToken_start,
      getSpecialToken_role, Option.pure_def, Option.some_inj] at h
    exact ⟨base, rfl, h.symm⟩

/-- Witness for C4: the empty conversation continued by a user turn. -/
theorem render_for_completion_ends_with_start_role_witness :
    ∃ base, renderConversation ⟨[]⟩ = some base ∧
      [200000, 200012] = base ++ [200000, roleRank .user] :=
  render_for_completion_ends_with_start_role ⟨[]⟩ .user [200000, 200012] (by decide)

/-! ## The allowed-special set of `CoreBPE::encode` -/

lemma find?_congr {α : Type} (p q : α → Bool) (l : List α)
    (h : ∀ x ∈ l, p x = q x) : l.find? p = l.find? q := by
  induction l with
  | nil => rfl
  | cons a l ih =>
    have ha := h a (List.mem_cons_self a l)
    rcases hq : q a with _ | _
    · have hpa : p a = false := ha.trans hq
      rw [List.find?_cons_of_neg _ (by simp [hpa]), List.find?_cons_of_neg _ (by simp [hq])]
      exact ih (fun x hx => h x (List.mem_cons_of_mem a hx))
    · rw [List.find?_cons_of_pos _ (ha.trans hq), List.find?_cons_of_pos _ hq]

/-- With the empty allowed set, the `allowed_special.empty()` disjunct makes
the scan condition identical to the allow-all condition. -/
lemma findSpecialAt_empty (s : List Nat) (pos : Nat) :
    findSpecialAt [] s pos = findSpecialAt allSpecialKeys s pos := by
  rw [findSpecialAt, findSpecialAt]
  apply find?_congr
  intro p hp
  have hmem : p.1 ∈ allSpecialKeys := List.mem_map_of_mem (fun q => q.1) hp
  simp [hmem]

lemma encodeLoopF_empty (fuel : Nat) :
    ∀ remaining pos acc lastLen,
      encodeLoopF [] fuel remaining pos acc lastLen =
      encodeLoopF allSpecialKeys fuel remaining pos acc lastLen := by
  induction fuel with
  | zero => intro remaining pos acc lastLen; rfl
  | succ fuel ih =>
    intro remaining pos acc lastLen
    rw [encodeLoopF, encodeLoopF, findSpecialAt_empty]
    by_cases hlt : pos < remaining.length
    · rw [if_pos hlt, if_pos hlt]
      rcases hfs : findSpecialAt allSpecialKeys remaining pos with _ | tr
      · simp only [hfs, ih]
      · simp only [hfs, ih]
    · rw [if_neg hlt, if_neg hlt]

/-- C5 (amended).  `CoreBPE::encode` with an empty allowed-special set
behaves as allow-all: the result is identical to encoding with every special
literal allowed, so specials are recognized and emitted as reserved ranks. -/
theorem encode_empty_allowed_acts_as_allow_all (text : List Nat) :
    encodeSpecial text [] = encodeSpecial text allSpecialKeys := by
  rw [encodeSpecial, encodeSpecial]
  rw [if_neg (show ¬specialsList.isEmpty = true by decide),
    if_neg (show ¬specialsList.isEmpty = true by decide)]
  exact encodeLoopF_empty _ text 0 [] 0

/-- Counterexample refuting C5 as stated: encoding `<|start|>` with the
empty allowed set emits the reserved rank 200000, so a special literal is
recognized even though the allowed set is empty. -/
theorem encode_empty_allowed_emits_reserved :
    (encodeSpecial (ab "<|start|>") []).1 = [200000] ∧
      isReservedRank 200000 = true := by
  decide

/-! ## End markers of the renderer -/

/-- C6 (amended).  Every message the renderer produces ends with the rank of
`<|end|>`; in particular assistant tool-call messages also end with
`<|end|>`, and `<|call|>` is never emitted. -/
theorem render_message_ends_with_end_token (m : Message) (ts : List Nat)
    (h : renderMessage m = some ts) : ∃ ts0, ts = ts0 ++ [200001] := by
  rw [renderMessage] at h
  rcases hch : m.channel with _ | ch
  all_goals rw [hch] at h
  all_goals rcases hct : m.content_type with _ | cty
  all_goals rw [hct] at h
  all_goals
    simp only [getSpecialToken_start, getSpecialToken_role, getSpecialToken_channel,
      getSpecialToken_constrain, getSpecialToken_message, getSpecialToken_end,
      Option.bind_eq_bind, Option.some_bind, Option.pure_def, Option.some_inj] at h
  all_goals rw [← h]
  all_goals exact ⟨_, rfl⟩

/-- Witness for C6 (amended) at a concrete user message. -/
theorem render_message_ends_with_end_token_witness :
    ∃ ts0, [200000, 200012, 200002, 72, 290, 108, 111, 200001] = ts0 ++ [200001] :=
  render_message_ends_with_end_token
    { author := ⟨.user, none⟩, content := [.text (ab "Hello")] }
    [200000, 200012, 200002, 72, 290, 108, 111, 200001] (by decide)

/-- Counterexample refuting C6 as stated: an assistant message with a
recipient (a tool call) renders with final rank 200001, the rank of
`<|end|>`, not 200005, the rank of `<|call|>`. -/
theorem tool_call_message_ends_with_end_not_call :
    (renderMessage
      { author := ⟨.assistant, none⟩, recipient := some (ab "get_weather"),
        content := [.text (ab "x")], content_type := some (ab "json") }).map
      (fun ts => ts.getLastD 0) = some 200001 ∧
    getSpecialToken (ab "<|call|>") = some 200005 ∧ (200001 : Nat) ≠ 200005 := by
  decide

/-! ## The streamable parser in `ExpectStart` -/

/-- C7 (amended).  In `ExpectStart` the parser never raises a protocol
error: `<|start|>` moves it to `Header`, and any other token is recorded and
silently ignored; the only failure is the token's own decode failure. -/
theorem process_in_expect_start_never_protocol_errors (st : ParserState) (tok : Nat)
    (h : st.state = .expectStart) :
    processTok st tok = (decodeUtf8 [tok]).map (fun txt =>
      if txt == ab "<|start|>" then
        { st with tokens := st.tokens ++ [tok], state := .header }
      else { st with tokens := st.tokens ++ [tok] }) := by
  rw [processTok]
  rcases hd : decodeUtf8 [tok] with e | txt
  · rfl
  · simp only [stepParser, h]
    rfl

/-- Witness for C7 (amended) at the initial parser and `<|start|>`. -/
theorem process_in_expect_start_never_protocol_errors_witness :
    processTok (initParser none) 200000 = (decodeUtf8 [200000]).map (fun txt =>
      if txt == ab "<|start|>" then
        { initParser none with tokens := (initParser none).tokens ++ [200000], state := .header }
      else { initParser none with tokens := (initParser none).tokens ++ [200000] }) :=
  process_in_expect_start_never_protocol_errors (initParser none) 200000 rfl

/-- Counterexample refuting C7 as stated: feeding `<|message|>` (rank
200002) in `ExpectStart` does not raise an error — the parser returns
normally with its state unchanged. -/
theorem expect_start_ignores_unexpected_special :
    processTok (initParser none) 200002 =
      .ok { initParser none with tokens := [200002] } := by
  rfl

/-! ## Channel capture (C8) -/

/-- The token stream of `<|start|>assistant<|channel|>final<|message|>Hi`. -/
def c8TokenStream : List Nat :=
  [200000, 200013, 200003] ++ encodeOrdinary (ab "final") ++ [200002] ++
    encodeOrdinary (ab "Hi")

/-- C8.  Evaluating the streamable parser on the claim's token stream: the
`<|channel|>` arm of `process` is an empty stub, so `current_channel` stays
unset, the channel text is appended to the content buffer (yielding
`finalHi`), and no message is completed — against the claim's
`current_channel = "final"`, `current_content = "Hi"`. -/
theorem channel_tokens_leak_into_content :
    (processAll (initParser (some .assistant)) c8TokenStream).toOption.map
      (fun st => (st.currentChannel, st.currentContent, st.messages)) =
      some (none, ab "finalHi", []) := by
  decide

/-! ## UTF-8 behaviour of the streamable parser (C9) -/

lemma decodeUtf8_ok_valid {ts bs : List Nat} (h : decodeUtf8 ts = .ok bs) :
    validUtf8 bs = true := by
  rw [decodeUtf8] at h
  rcases hd : decodeBytes ts with e | bs1
  all_goals rw [hd] at h
  · replace h : (Except.error e : Except CodecErr (List Nat)) = Except.ok bs := h
    cases h
  · replace h : (if validUtf8 bs1 then Except.ok bs1
        else Except.error CodecErr.invalidUtf8) = Except.ok bs := h
    by_cases hv : validUtf8 bs1
    · rw [if_pos hv] at h
      injection h with h
      exact h ▸ hv
    · rw [if_neg hv] at h
      cases h

lemma finalize_delta (st : ParserState) :
    (finalizeCurrentMessage st).lastContentDelta = st.lastContentDelta := by
  rcases hr : st.currentRole with _ | r
  all_goals simp [finalizeCurrentMessage, hr]

/-- One parser step leaves the delta unchanged or sets it to the decoded
token text. -/
lemma stepParser_delta (st : ParserState) (txt : List Nat) :
    (stepParser st txt).lastContentDelta = st.lastContentDelta ∨
    (stepParser st txt).lastContentDelta = some txt := by
  rcases hs : st.state with _ | _ | _
  all_goals simp only [stepParser, hs]
  · split
    · exact .inl rfl
    · exact .inl rfl
  · split
    · exact .inl rfl
    · exact .inl rfl
  · split
    · exact .inl rfl
    · split
      · exact .inl rfl
      · split
        · exact .inl rfl
        · split
          · exact .inl (finalize_delta st)
          · exact .inr rfl

/-- If the delta of a parser state is valid UTF-8, that stays true across
any successful call of `process`. -/
lemma processTok_delta_valid {st0 st1 : ParserState} {tok : Nat}
    (h : processTok st0 tok = .ok st1)
    (h0 : ∀ d, st0.lastContentDelta = some d → validUtf8 d = true) :
    ∀ d, st1.lastContentDelta = some d → validUtf8 d = true := by
  rw [processTok] at h
  rcases hd : decodeUtf8 [tok] with e | txt
  all_goals rw [hd] at h
  · cases h
  · injection h with h
    subst h
    intro d hdel
    rcases stepParser_delta { st0 with tokens := st0.tokens ++ [tok] } txt with hc | hc
    · rw [hc] at hdel
      exact h0 d hdel
    · rw [hc] at hdel
      injection hdel with hdel
      exact hdel ▸ decodeUtf8_ok_valid hd

lemma processAll_delta_valid :
    ∀ (tokens : List Nat) (st0 st : ParserState),
      (∀ d, st0.lastContentDelta = some d → validUtf8 d = true) →
      processAll st0 tokens = .ok st →
      ∀ d, st.lastContentDelta = some d → validUtf8 d = true := by
  intro tokens
  induction tokens with
  | nil =>
    intro st0 st h0 h
    injection h with h
    exact h ▸ h0
  | cons t ts ih =>
    intro st0 st h0 h
    rw [processAll] at h
    rcases hp : processTok st0 t with e | st1
    all_goals rw [hp] at h
    · cases h
    · exact ih st1 st (processTok_delta_valid hp h0) h

/-- C9 (amended).  After every successful `process` call the exposed
`last_content_delta` is valid UTF-8 — but only because a token whose bytes
do not decode to complete valid UTF-8 makes `process` fail outright (see the
counterexample) instead of deferring the byte tail. -/
theorem last_content_delta_always_valid_utf8 (role : Option Role)
    (tokens : List Nat) (st : ParserState)
    (h : processAll (initParser role) tokens = .ok st)
    (d : List Nat) (hd : st.lastContentDelta = some d) : validUtf8 d = true :=
  processAll_delta_valid tokens (initParser role) st
    (fun _ hdel => Option.noConfusion hdel) h d hd

/-- Witness for C9 (amended): a one-byte content token. -/
theorem last_content_delta_always_valid_utf8_witness : validUtf8 [72] = true :=
  last_content_delta_always_valid_utf8 none [200000, 200013, 200002, 72]
    { nextRole := none, tokens := [200000, 200013, 200002, 72], messages := [],
      state := .content, lastContentDelta := some [72], currentContent := [72],
      currentRole := some .assistant, currentChannel := none,
      currentRecipient := none, currentContentType := none }
    (by rfl) [72] rfl

/-- Counterexample refuting C9 as stated: a token carrying only the first
byte of the two-byte code point `é` (rank 195 = byte 0xC3) makes `process`
throw `DecodeError` instead of deferring the undecoded tail. -/
theorem split_codepoint_token_fails :
    processAll (initParser none) [200000, 200013, 200002, 195] =
      .error .invalidUtf8 := by
  rfl

/-! ## Field reset on finalization (C10) -/

/-- C10.  Whenever `finalize_current_message` appends a completed message,
every per-message field is reset in the same step: the content buffer is
cleared and role, channel, recipient and content-type all become absent. -/
theorem finalize_resets_all_fields (st : ParserState)
    (h : (finalizeCurrentMessage st).messages ≠ st.messages) :
    (finalizeCurrentMessage st).currentContent = [] ∧
    (finalizeCurrentMessage st).currentRole = none ∧
    (finalizeCurrentMessage st).currentChannel = none ∧
    (finalizeCurrentMessage st).currentRecipient = none ∧
    (finalizeCurrentMessage st).currentContentType = none := by
  rcases hr : st.currentRole with _ | r
  · exact absurd (by simp [finalizeCurrentMessage, hr]) h
  · simp [finalizeCurrentMessage, hr]

/-- Witness for C10 at a concrete mid-message parser state. -/
theorem finalize_resets_all_fields_witness :
    (finalizeCurrentMessage { currentRole := some .user, currentContent := [72] }).currentContent = [] ∧
    (finalizeCurrentMessage { currentRole := some .user, currentContent := [72] }).currentRole = none ∧
    (finalizeCurrentMessage { currentRole := some .user, currentContent := [72] }).currentChannel = none ∧
    (finalizeCurrentMessage { currentRole := some .user, currentContent := [72] }).currentRecipient = none ∧
    (finalizeCurrentMessage { currentRole := some .user, currentContent := [72] }).currentContentType = none :=
  finalize_resets_all_fields { currentRole := some .user, currentContent := [72] }
    (by decide)

/-! ## The render/parse round trip (C1) -/

/-- C1.  Evaluating both sides of the round-trip property at the
conversation `[User("Hello")]`: the renderer emits the role as the special
token `<|user|>`, while the parse regex requires the role as plain text
after `<|start|>` (its first capture group forbids `<`), so parsing the
rendered tokens yields no message at all, while `strip_empty` keeps the
message. -/
theorem parse_of_render_loses_messages :
    (renderConversation ⟨[{ author := ⟨.user, none⟩, content := [.text (ab "Hello")] }]⟩).map
      (fun ts => (parseMessagesFromCompletionTokens ts).toOption) = some (some []) ∧
    stripEmpty [{ author := ⟨.user, none⟩, content := [.text (ab "Hello")] }] =
      [{ author := ⟨.user, none⟩, content := [.text (ab "Hello")] }] ∧
    ([] : List Message) ≠
      [{ author := ⟨.user, none⟩, content := [.text (ab "Hello")] }] := by
  decide

end Harmony
